import Mathlib

/-!
Shallow embedding of `src/spriteutil.py` (sprite-sheet connected-component
labeling) together with proofs about its specification.

Modelling conventions:
* A pixel value is an opaque, equality-comparable scalar, modelled as `Nat`.
* A coordinate is `Int × Int` (Python tuples; neighbour coordinates computed
  by `check_neighborhood` may be negative, they are simply never found in
  the dictionaries).
* A Python `dict` is an association list in key-insertion order; updating a
  value in place keeps the key's position, `del` removes the entry.
* A Python `set` of labels is modelled as a list used only through
  membership, minimum, emptiness and union, which are all insensitive to
  order and duplication, exactly like the source's use of its sets.
* The aliasing between the values of `equivalence_dict` and the mutable set
  objects stored in `equivalence_list` (Pass 2, `update_label`) is modelled
  by a store: the list of sets is the store and `equivalence_dict` maps a
  label to the store index of the first set found to contain it.
* An uncaught Python exception (`KeyError`, or `ValueError` from `min`
  or `max` of an empty sequence) is modelled by `Option.none`
  (or `Except.error` for `find_most_common_color`).
-/

abbrev Coord := Int × Int

/-- A PIL image as the code consumes it: a width, a height and a pixel
accessor (the `image.getpixel` method). -/
structure PILImage where
  width : Nat
  height : Nat
  getpixel : Coord → Nat

/-- The labelled dictionary `\x7blabel: [pixels]\x7d`, in key-insertion order. -/
abbrev LDict := List (Nat × List Coord)

/-- Python dict lookup on an association list (first matching key). -/
def alookup {α : Type} (l : List (Nat × α)) (k : Nat) : Option α :=
  (l.find? (fun e => e.1 == k)).map Prod.snd

/-- In-place update of the value stored at key `k` (keeps the key position,
like Python's `d[k] = v` / `d[k] += ...` on an existing key). -/
def setEntry (d : LDict) (k : Nat) (v : List Coord) : LDict :=
  d.map (fun e => if e.1 = k then (k, v) else e)

/-- Python's `del d[k]`. -/
def removeKey (d : LDict) (k : Nat) : LDict :=
  d.filter (fun e => e.1 != k)

/-- Python's `min` over a collection of labels (junk value 0 on the empty
collection, on which the source never calls it). -/
def lmin : List Nat → Nat
  | [] => 0
  | a :: rest => rest.foldl Nat.min a

/-- Python's `max(labelled_dict.keys())` (junk value 0 on an empty dict, on
which the source never calls it). -/
def maxKey (d : LDict) : Nat :=
  (d.map Prod.fst).foldl Nat.max 0

/-- The eight neighbour offsets used by `check_neighborhood`. -/
def directions : List Coord :=
  [(-1, -1), (0, -1), (1, -1), (-1, 0), (1, 0), (-1, 1), (0, 1), (1, 1)]

/-- Python tuple addition `tuple(map(lambda x,y: x+y, pc, d))`. -/
def addC (p q : Coord) : Coord := (p.1 + q.1, p.2 + q.2)

/-- `check_neighborhood(pixel_coordinate, labelled_dict)`: the set of labels
whose pixel list contains one of the eight neighbours of `pc`. -/
def check_neighborhood (pc : Coord) (d : LDict) : List Nat :=
  (d.filter (fun e => directions.any (fun dir => decide (addC pc dir ∈ e.2)))).map Prod.fst

/-- `find_label(pixel_coordinate, labelled_dict, equivalence_list)`
(CCL Pass 1 for one pixel). -/
def find_label (pc : Coord) (d : LDict) (eqList : List (List Nat)) :
    Nat × List (List Nat) :=
  if d.isEmpty then (1, eqList)
  else
    let equivalence := check_neighborhood pc d
    if equivalence.isEmpty then (maxKey d + 1, eqList)
    else (lmin equivalence, eqList ++ [equivalence])

/-- The state threaded through the Pass 1 scan of `create_labelled_dict`. -/
structure ScanState where
  d : LDict
  eqList : List (List Nat)

/-- The body of the Pass 1 double loop of `create_labelled_dict` for one
pixel coordinate. -/
def scanStep (img : PILImage) (bg : Nat) (st : ScanState) (pc : Coord) : ScanState :=
  if img.getpixel pc ≠ bg then
    let r := find_label pc st.d st.eqList
    let d1 := match alookup st.d r.1 with
      | some lst => setEntry st.d r.1 (lst ++ [pc])
      | none => st.d ++ [(r.1, [pc])]
    ⟨d1, r.2⟩
  else st

/-- The row-major coordinate order of the scan (`y` outer, `x` inner). -/
def coords (w h : Nat) : List Coord :=
  (List.range h).flatMap (fun y => (List.range w).map (fun x => (Int.ofNat x, Int.ofNat y)))

/-- Pass 1 of `create_labelled_dict`: the scan over all pixels. -/
def passOne (img : PILImage) (bg : Nat) : ScanState :=
  (coords img.width img.height).foldl (scanStep img bg) ⟨[], []⟩

/-- Python `set.update`: union, keeping the left operand's elements. -/
def lunion (a b : List Nat) : List Nat :=
  a ++ b.filter (fun x => !(a.contains x))

/-- One iteration of the inner loop of `update_label`'s first phase, for a
fixed `label` and store position `j`.  The accumulator is the store (the
live set objects of `equivalence_list`) and `equivalence_dict` as a map
from label to store index. -/
def phaseAStep (label : Nat) (acc : List (List Nat) × List (Nat × Nat)) (j : Nat) :
    List (List Nat) × List (Nat × Nat) :=
  if label ∈ acc.1.getD j [] then
    match alookup acc.2 label with
    | none => (acc.1, acc.2 ++ [(label, j)])
    | some i => (acc.1.set i (lunion (acc.1.getD i []) (acc.1.getD j [])), acc.2)
  else acc

/-- The first phase of `update_label`: build `equivalence_dict`, mutating
the aliased sets of `equivalence_list` in place. -/
def phaseA (labels : List Nat) (store : List (List Nat)) :
    List (List Nat) × List (Nat × Nat) :=
  labels.foldl (fun acc label => (List.range store.length).foldl (phaseAStep label) acc)
    (store, [])

/-- The final merge loop of `update_label` over a copy of the keys.
`none` models an uncaught `KeyError`: either `equivalence_dict[label]`
(a dictionary label that occurs in no equivalence set) or
`labelled_dict[reduced_label]` (a canonical label already merged away). -/
def mergeFold (eqmin : List (Nat × Nat)) : LDict → List Nat → Option LDict
  | d, [] => some d
  | d, label :: rest =>
    match alookup eqmin label with
    | none => none
    | some r =>
      if r = label then mergeFold eqmin d rest
      else
        match alookup d r with
        | none => none
        | some lstR =>
          match alookup d label with
          | none => none
          | some lstL => mergeFold eqmin (removeKey (setEntry d r (lstR ++ lstL)) label) rest

/-- `update_label(labelled_dict, equivalence_list)` (CCL Pass 2). -/
def update_label (d : LDict) (eqList : List (List Nat)) : Option LDict :=
  let pa := phaseA (d.map Prod.fst) eqList
  let eqmin := pa.2.map (fun li => (li.1, lmin (pa.1.getD li.2 [])))
  mergeFold eqmin d (d.map Prod.fst)

/-- `create_labelled_dict(image, background_color)`. -/
def create_labelled_dict (img : PILImage) (bg : Nat) : Option LDict :=
  let st := passOne img bg
  update_label st.d st.eqList

/-- The label written by `create_label_map` into one cell: the last
dictionary entry whose pixel list contains the coordinate, 0 otherwise. -/
def cellLabel (d : LDict) (pc : Coord) : Nat :=
  d.foldl (fun acc e => if pc ∈ e.2 then e.1 else acc) 0

/-- `create_label_map(labelled_dict, image)` (the `np.array` wrapper of the
source is dropped: the nested list already is the dense 2D array). -/
def create_label_map (d : LDict) (img : PILImage) : List (List Nat) :=
  (List.range img.height).map (fun y =>
    (List.range img.width).map (fun x => cellLabel d (Int.ofNat x, Int.ofNat y)))

/-- The `Sprite` class: its five attributes, set once by the constructor.
The model is immutable by construction, as the class only exposes read-only
properties. -/
structure Sprite where
  label : Int
  top_left : Coord
  bottom_right : Coord
  width : Int
  height : Int
  deriving DecidableEq

/-- `Sprite.__init__`: `none` models the raised `ValueError` (the spec's
`InvalidGeometry`). -/
def Sprite.init (label x1 y1 x2 y2 : Int) : Option Sprite :=
  if label ≥ 0 ∧ x1 ≥ 0 ∧ y1 ≥ 0 ∧ x2 ≥ 0 ∧ y2 ≥ 0 ∧ x1 ≤ x2 ∧ y1 ≤ y2 then
    some ⟨label, (x1, y1), (x2, y2), x2 - x1 + 1, y2 - y1 + 1⟩
  else none

/-- `min(lst, key=lambda x: x[0])[0]` (junk 0 on the empty list). -/
def minXs : List Coord → Int
  | [] => 0
  | c :: rest => rest.foldl (fun a q => min a q.1) c.1

/-- `max(lst, key=lambda x: x[0])[0]` (junk 0 on the empty list). -/
def maxXs : List Coord → Int
  | [] => 0
  | c :: rest => rest.foldl (fun a q => max a q.1) c.1

/-- `min(lst, key=lambda x: x[1])[1]` (junk 0 on the empty list). -/
def minYs : List Coord → Int
  | [] => 0
  | c :: rest => rest.foldl (fun a q => min a q.2) c.2

/-- `max(lst, key=lambda x: x[1])[1]` (junk 0 on the empty list). -/
def maxYs : List Coord → Int
  | [] => 0
  | c :: rest => rest.foldl (fun a q => max a q.2) c.2

/-- The sprite built by `find_sprites` for one component (`none` models the
`ValueError` Python's `min` would raise on an empty pixel list). -/
def spriteOf (label : Nat) (lst : List Coord) : Option Sprite :=
  if lst.isEmpty then none
  else Sprite.init (label : Int) (minXs lst) (minYs lst) (maxXs lst) (maxYs lst)

/-- The sprite-building loop of `find_sprites`, in dictionary order. -/
def spritesOf : LDict → Option (List (Nat × Sprite))
  | [] => some []
  | e :: rest =>
    match spriteOf e.1 e.2 with
    | none => none
    | some s =>
      match spritesOf rest with
      | none => none
      | some tl => some ((e.1, s) :: tl)

/-- All pixel values of an image in row-major order. -/
def pixelList (img : PILImage) : List Nat :=
  (coords img.width img.height).map img.getpixel

/-- The distinct elements of a list in first-occurrence order. -/
def firstOccurrences (l : List Nat) : List Nat :=
  l.foldl (fun acc a => if a ∈ acc then acc else acc ++ [a]) []

/-- Modelled from the spec: the source delegates colour counting to PIL's
`Image.getcolors`, a method of the external image object, absent from this
repository.  Following spec 4.1 the model returns each distinct colour with
its occurrence count; the list order, which PIL leaves unspecified, is fixed
here to first-occurrence row-major order. -/
def getcolors (img : PILImage) : List (Nat × Nat) :=
  (firstOccurrences (pixelList img)).map (fun c => ((pixelList img).count c, c))

/-- Python's `max(colors_list, key=lambda tup: tup[0])`: the first pair with
the highest count (`none` on the empty list, where Python raises
`ValueError`). -/
def maxByCount : List (Nat × Nat) → Option (Nat × Nat)
  | [] => none
  | a :: rest => some (rest.foldl (fun b x => if x.1 > b.1 then x else b) a)

/-- The colour analysis applied to an actual image object. -/
def find_most_common_color_img (img : PILImage) : Option Nat :=
  (maxByCount (getcolors img)).map Prod.snd

/-- A Python argument as `find_most_common_color` sees it: it may or may not
expose the `width`, `height` and pixel-access attributes of an image
object. -/
structure PyObject where
  widthAttr : Option Nat
  heightAttr : Option Nat
  pixelsAttr : Option (Coord → Nat)

/-- The error taxonomy of the source: `TypeError` (the spec's
`InvalidInput`) and an uncaught `ValueError`. -/
inductive PyErr where
  | typeError
  | valueError
  deriving DecidableEq

/-- An argument is image-like when it exposes width, height and per-pixel
access. -/
def isImageLike (o : PyObject) : Prop :=
  o.widthAttr.isSome ∧ o.heightAttr.isSome ∧ o.pixelsAttr.isSome

instance (o : PyObject) : Decidable (isImageLike o) := by
  unfold isImageLike
  infer_instance

/-- `find_most_common_color(image)`: accessing a missing attribute raises
`AttributeError`, which the source converts to `TypeError`. -/
def find_most_common_color (o : PyObject) : Except PyErr Nat :=
  match o.widthAttr, o.heightAttr, o.pixelsAttr with
  | some w, some h, some pix =>
    match find_most_common_color_img ⟨w, h, pix⟩ with
    | none => Except.error PyErr.valueError
    | some c => Except.ok c
  | _, _, _ => Except.error PyErr.typeError

/-- `find_sprites(image, background_color)`; `background_color = none` is
Python's `None` default, triggering automatic background detection. -/
def find_sprites (img : PILImage) (background_color : Option Nat) :
    Option (List (Nat × Sprite) × List (List Nat)) :=
  match (match background_color with
         | none => find_most_common_color_img img
         | some c => some c) with
  | none => none
  | some bg =>
    match create_labelled_dict img bg with
    | none => none
    | some d =>
      match spritesOf d with
      | none => none
      | some sprites => some (sprites, create_label_map d img)

/-- The list of foreground pixels of an image (row-major order). -/
def fgList (img : PILImage) (bg : Nat) : List Coord :=
  (coords img.width img.height).filter (fun c => img.getpixel c != bg)

/-- Spec glossary, 8-connectivity: two distinct pixels are neighbours when
they share an edge or a corner. -/
def adjacent8 (p q : Coord) : Bool :=
  decide (p ≠ q) && decide ((p.1 - q.1).natAbs ≤ 1) && decide ((p.2 - q.2).natAbs ≤ 1)

/-- One expansion step of 8-connected reachability inside a pixel set. -/
def expandReach (fg : List Coord) (s : List Coord) : List Coord :=
  s ++ fg.filter (fun q => !(s.contains q) && s.any (fun p => adjacent8 p q))

/-- The pixels of `fg` reachable from `p` through chains of 8-connected
neighbours (`fg.length` expansion steps reach the fixpoint). -/
def reachFrom (fg : List Coord) (p : Coord) : List Coord :=
  (expandReach fg)^[fg.length] [p]

/-- Spec notion: the image's foreground is exactly one 8-connected
component. -/
def oneComponent (img : PILImage) (bg : Nat) : Bool :=
  match fgList img bg with
  | [] => false
  | p :: rest => rest.all (fun q => (reachFrom (fgList img bg) p).contains q)

/-- A 2x2 image whose pixels all hold colour 7. -/
def imgUniform : PILImage := ⟨2, 2, fun _ => 7⟩

/-- A 5x3 image whose foreground is the single 8-connected shape
`....# / #.##. / .#...` (pixel A = (0,1) touches B = (1,2), B touches
C = (2,1), but A and C are not direct neighbours). -/
def imgChain : PILImage :=
  ⟨5, 3, fun pc =>
    if pc ∈ ([((4 : Int), (0 : Int)), (0, 1), (2, 1), (3, 1), (1, 2)] : List Coord)
    then 1 else 0⟩

/-- A 3x3 image with exactly two foreground pixels, at (0,0) and (2,2). -/
def imgTwoPix : PILImage :=
  ⟨3, 3, fun pc => if pc = ((0 : Int), (0 : Int)) ∨ pc = ((2 : Int), (2 : Int)) then 1 else 0⟩

/-- A 2x2 image with a single one-pixel foreground region at (0,0). -/
def imgOnePix : PILImage :=
  ⟨2, 2, fun pc => if pc = ((0 : Int), (0 : Int)) then 5 else 9⟩

/-- A 2x2 image whose foreground is the domino (0,0)-(1,0). -/
def imgDomino : PILImage :=
  ⟨2, 2, fun pc => if pc = ((0 : Int), (0 : Int)) ∨ pc = ((1 : Int), (0 : Int)) then 1 else 0⟩

/-- A 2x1 image with one foreground pixel at (0,0). -/
def imgDetA : PILImage :=
  ⟨2, 1, fun pc => if pc = ((0 : Int), (0 : Int)) then 3 else 0⟩

/-- The same picture as `imgDetA` computed by a different pixel function
(it differs from `imgDetA.getpixel` outside the image bounds). -/
def imgDetB : PILImage :=
  ⟨2, 1, fun pc => if pc.2 = 0 ∧ pc.1 = 0 then 3 else if pc.1 ≥ 7 then 42 else 0⟩

/-- A foreground pixel none of whose eight neighbours is a foreground
pixel: a connected component consisting of exactly one pixel. -/
def isolatedPixel (img : PILImage) (bg : Nat) (p : Coord) : Prop :=
  p ∈ fgList img bg ∧ ∀ dir ∈ directions, addC p dir ∉ fgList img bg

instance (img : PILImage) (bg : Nat) (p : Coord) : Decidable (isolatedPixel img bg p) := by
  unfold isolatedPixel
  infer_instance

/-- Invariant of a labelled dictionary: all recorded pixels are foreground
pixels, keys are distinct positive labels, and the pixel lists of distinct
labels are disjoint. -/
structure DictInv (img : PILImage) (bg : Nat) (d : LDict) : Prop where
  fg : ∀ e ∈ d, ∀ c ∈ e.2, c ∈ fgList img bg
  keysNodup : (d.map Prod.fst).Nodup
  keysPos : ∀ e ∈ d, 1 ≤ e.1
  disj : ∀ e1 ∈ d, ∀ e2 ∈ d, e1.1 ≠ e2.1 → ∀ c ∈ e1.2, c ∉ e2.2

/-- Invariant of the Pass 1 state: the dictionary invariant plus the fact
that every label mentioned by an equivalence record is a dictionary key. -/
structure ScanInv (img : PILImage) (bg : Nat) (st : ScanState) : Prop where
  dict : DictInv img bg st.d
  eqKeys : ∀ s ∈ st.eqList, ∀ x ∈ s, ∃ e ∈ st.d, e.1 = x

/-- The tracked fact for an isolated pixel `p`: some label owns exactly the
pixel list `[p]` and occurs in no equivalence record. -/
def IsoPred (p : Coord) (st : ScanState) : Prop :=
  ∃ L, (L, [p]) ∈ st.d ∧ ∀ s ∈ st.eqList, L ∉ s

/-- A 1x1 image whose only pixel is foreground on background 0. -/
def imgLone : PILImage := ⟨1, 1, fun _ => 4⟩

/-! ## Claim theorems -/

/-- Claim C1 fails on the code: on `imgChain`, whose foreground is a single
8-connected component containing the chain A = (0,1) ~ B = (1,2) ~ C = (2,1)
with A and C not direct neighbours, Pass 2 does not compute the transitive
closure of the records and `find_sprites` returns two components
(labels 1 and 2) instead of one. -/
theorem update_label_not_transitive :
    oneComponent imgChain 0 = true ∧
    create_labelled_dict imgChain 0 =
      some [(1, [(4, 0), (3, 1), (2, 1)]), (2, [(0, 1), (1, 2)])] ∧
    (find_sprites imgChain (some 0)).map (fun r => r.1.map Prod.fst) = some [1, 2] := by
  refine ⟨by decide, by decide, by decide⟩

/-- Claim C2 fails on the code: on `imgTwoPix`, two foreground pixels at
(0,0) and (2,2) that are not 8-adjacent, `find_sprites` does not return two
sprites; it dies with an uncaught KeyError in `update_label` (modelled by
`none`), because neither isolated pixel's label occurs in any equivalence
record. -/
theorem find_sprites_keyerror_two_isolated_pixels :
    adjacent8 (0, 0) (2, 2) = false ∧
    fgList imgTwoPix 0 = [(0, 0), (2, 2)] ∧
    find_sprites imgTwoPix (some 0) = none := by
  refine ⟨by decide, by decide, by decide⟩

/-- Claim C4 fails on the code for a one-pixel region: on `imgOnePix`, whose
foreground is exactly one connected region consisting of the single pixel
(0,0) (bounding box (0,0)-(0,0)), `find_sprites` returns no sprite at all:
it dies with an uncaught KeyError in `update_label` (modelled by `none`). -/
theorem find_sprites_keyerror_single_pixel_blob :
    fgList imgOnePix 9 = [(0, 0)] ∧
    find_sprites imgOnePix (some 9) = none := by
  refine ⟨by decide, by decide⟩

/-- Claim C7: `find_most_common_color` fails with the `InvalidInput` error
(Python `TypeError`) exactly when its argument does not expose width,
height and per-pixel access; the function is pure, so the error is
synchronous and never retried. -/
theorem find_most_common_color_type_error_iff (o : PyObject) :
    find_most_common_color o = Except.error PyErr.typeError ↔ ¬ isImageLike o := by
  obtain ⟨ow, oh, op⟩ := o
  unfold find_most_common_color isImageLike
  cases ow <;> cases oh <;> cases op <;> simp
  cases find_most_common_color_img _ <;> simp

/-- Witness for C7: the theorem applied to an argument with no image
attributes at all. -/
theorem find_most_common_color_type_error_iff_witness :
    find_most_common_color ⟨none, none, none⟩ = Except.error PyErr.typeError :=
  (find_most_common_color_type_error_iff ⟨none, none, none⟩).mpr (by simp [isImageLike])

/-- Claim C8: `Sprite.__init__` raises `InvalidGeometry` (Python
`ValueError`) iff `label < 0`, a coordinate is negative, `x1 > x2` or
`y1 > y2`; otherwise the constructed sprite carries exactly the documented
attributes (the model is immutable by construction). -/
theorem sprite_init_spec (label x1 y1 x2 y2 : Int) :
    (Sprite.init label x1 y1 x2 y2 = none ↔
      (label < 0 ∨ x1 < 0 ∨ y1 < 0 ∨ x2 < 0 ∨ y2 < 0 ∨ x1 > x2 ∨ y1 > y2)) ∧
    (∀ s, Sprite.init label x1 y1 x2 y2 = some s →
      s.label = label ∧ s.top_left = (x1, y1) ∧ s.bottom_right = (x2, y2) ∧
      s.width = x2 - x1 + 1 ∧ s.height = y2 - y1 + 1) := by
  constructor
  · constructor
    · intro hn
      by_cases h : label ≥ 0 ∧ x1 ≥ 0 ∧ y1 ≥ 0 ∧ x2 ≥ 0 ∧ y2 ≥ 0 ∧ x1 ≤ x2 ∧ y1 ≤ y2
      · rw [Sprite.init, if_pos h] at hn
        cases hn
      · omega
    · intro hd
      rw [Sprite.init, if_neg (by omega)]
  · intro s hs
    by_cases h : label ≥ 0 ∧ x1 ≥ 0 ∧ y1 ≥ 0 ∧ x2 ≥ 0 ∧ y2 ≥ 0 ∧ x1 ≤ x2 ∧ y1 ≤ y2
    · rw [Sprite.init, if_pos h] at hs
      cases hs
      exact ⟨rfl, rfl, rfl, rfl, rfl⟩
    · rw [Sprite.init, if_neg h] at hs
      cases hs

/-- Witness for C8: the (valid) sprite of the source's own test comment,
`Sprite(1, 12, 23, 145, 208)`. -/
theorem sprite_init_spec_witness :
    (Sprite.mk 1 (12, 23) (145, 208) 134 186).label = 1 ∧
    (Sprite.mk 1 (12, 23) (145, 208) 134 186).top_left = (12, 23) ∧
    (Sprite.mk 1 (12, 23) (145, 208) 134 186).bottom_right = (145, 208) ∧
    (Sprite.mk 1 (12, 23) (145, 208) 134 186).width = 145 - 12 + 1 ∧
    (Sprite.mk 1 (12, 23) (145, 208) 134 186).height = 208 - 23 + 1 :=
  (sprite_init_spec 1 12 23 145 208).2 (Sprite.mk 1 (12, 23) (145, 208) 134 186) (by decide)

/-- The Pass 1 scan only looks at the pixel values of the coordinates it
visits. -/
theorem foldl_scan_congr (i1 i2 : PILImage) (bg : Nat) :
    ∀ (cs : List Coord) (st : ScanState),
      (∀ c ∈ cs, i1.getpixel c = i2.getpixel c) →
      cs.foldl (scanStep i1 bg) st = cs.foldl (scanStep i2 bg) st := by
  intro cs
  induction cs with
  | nil => intro st _; rfl
  | cons c rest ih =>
    intro st h
    have hc : i1.getpixel c = i2.getpixel c := h c (by simp)
    have hstep : scanStep i1 bg st c = scanStep i2 bg st c := by
      unfold scanStep
      rw [hc]
    rw [List.foldl_cons, List.foldl_cons, hstep]
    exact ih _ (fun x hx => h x (by simp [hx]))

/-- Claim C10: `find_sprites` is deterministic.  It is a pure function of
the image's dimensions and pixel grid: any two runs on the same picture
(even through different pixel accessors) return identical sprite mappings,
with the same concrete label values, and cell-for-cell identical label
maps. -/
theorem find_sprites_deterministic (i1 i2 : PILImage) (bg : Nat)
    (hw : i1.width = i2.width) (hh : i1.height = i2.height)
    (hp : ∀ c ∈ coords i1.width i1.height, i1.getpixel c = i2.getpixel c) :
    find_sprites i1 (some bg) = find_sprites i2 (some bg) := by
  rw [hw, hh] at hp
  have hpass : passOne i1 bg = passOne i2 bg := by
    unfold passOne
    rw [hw, hh]
    exact foldl_scan_congr i1 i2 bg _ _ hp
  have hcd : create_labelled_dict i1 bg = create_labelled_dict i2 bg := by
    unfold create_labelled_dict
    rw [hpass]
  have hlm : ∀ d : LDict, create_label_map d i1 = create_label_map d i2 := by
    intro d
    unfold create_label_map
    rw [hw, hh]
  simp only [find_sprites]
  rw [hcd]
  cases create_labelled_dict i2 bg with
  | none => rfl
  | some d =>
    cases hs : spritesOf d with
    | none => simp [hs]
    | some sprites => simp [hs, hlm d]

/-- Witness for C10: two structurally different accessors for the same 2x1
picture produce identical results. -/
theorem find_sprites_deterministic_witness :
    find_sprites imgDetA (some 0) = find_sprites imgDetB (some 0) :=
  find_sprites_deterministic imgDetA imgDetB 0 rfl rfl (by decide)

/-- Background pixels leave the Pass 1 state untouched. -/
theorem foldl_scan_bg (img : PILImage) (bg : Nat) :
    ∀ (cs : List Coord) (st : ScanState),
      (∀ c ∈ cs, img.getpixel c = bg) → cs.foldl (scanStep img bg) st = st := by
  intro cs
  induction cs with
  | nil => intro st _; rfl
  | cons c rest ih =>
    intro st h
    have hc : img.getpixel c = bg := h c (by simp)
    have hstep : scanStep img bg st c = st := by
      unfold scanStep
      rw [if_neg (by simp [hc])]
    rw [List.foldl_cons, hstep]
    exact ih st (fun x hx => h x (by simp [hx]))

/-- Claim C9: on an image filled entirely with the background colour,
`find_sprites` returns an empty sprite collection and an all-zero label
map. -/
theorem find_sprites_uniform_image (img : PILImage) (bg : Nat)
    (h : ∀ c ∈ coords img.width img.height, img.getpixel c = bg) :
    find_sprites img (some bg) =
      some ([], (List.range img.height).map
        (fun _ => (List.range img.width).map (fun _ => 0))) := by
  have hpass : passOne img bg = ⟨[], []⟩ := foldl_scan_bg img bg _ _ h
  have hcd : create_labelled_dict img bg = some [] := by
    unfold create_labelled_dict
    rw [hpass]
    exact rfl
  simp only [find_sprites, hcd, spritesOf]
  exact rfl

/-- Witness for C9: the uniform 2x2 image of colour 7. -/
theorem find_sprites_uniform_image_witness :
    find_sprites imgUniform (some 7) =
      some ([], (List.range imgUniform.height).map
        (fun _ => (List.range imgUniform.width).map (fun _ => 0))) :=
  find_sprites_uniform_image imgUniform 7 (by decide)

/-! ## Auxiliary lemmas about the small helpers -/

theorem alookup_eq_none_iff {α : Type} (l : List (Nat × α)) (k : Nat) :
    alookup l k = none ↔ ∀ e ∈ l, e.1 ≠ k := by
  unfold alookup
  simp [List.find?_eq_none]

theorem alookup_mem {α : Type} {l : List (Nat × α)} {k : Nat} {v : α}
    (h : alookup l k = some v) : (k, v) ∈ l := by
  unfold alookup at h
  cases hf : l.find? (fun e => e.1 == k) with
  | none => rw [hf] at h; cases h
  | some e =>
    rw [hf] at h
    have he : e ∈ l := List.mem_of_find?_eq_some hf
    have hp : e.1 = k := by
      have h2 := List.find?_some hf
      simpa using h2
    have hv : e.2 = v := by simpa using h
    rw [← hp, ← hv]
    exact he

theorem alookup_isSome_of_key {α : Type} {l : List (Nat × α)} {k : Nat}
    (h : k ∈ l.map Prod.fst) : ∃ v, alookup l k = some v := by
  unfold alookup
  obtain ⟨e, he, hk⟩ := List.mem_map.mp h
  have : (l.find? (fun e => e.1 == k)).isSome := by
    rw [List.find?_isSome]
    exact ⟨e, he, by simp [hk]⟩
  cases hf : l.find? (fun e => e.1 == k) with
  | none =>
    rw [hf] at this
    simp at this
  | some e2 => exact ⟨e2.2, rfl⟩

theorem lmin_mem : ∀ (l : List Nat), l ≠ [] → lmin l ∈ l := by
  have key : ∀ (r : List Nat) (a : Nat), r.foldl Nat.min a ∈ a :: r := by
    intro r
    induction r with
    | nil => intro a; simp
    | cons b t ih =>
      intro a
      simp only [List.foldl_cons]
      have h2 := ih (Nat.min a b)
      rcases List.mem_cons.mp h2 with h3 | h3
      · have h4 : Nat.min a b = a ∨ Nat.min a b = b := by
          simp only [Nat.min_eq_min]
          omega
        rw [h3]
        rcases h4 with h4 | h4 <;> rw [h4]
        · exact List.mem_cons_self _ _
        · exact List.mem_cons.mpr (Or.inr (List.mem_cons_self _ _))
      · exact List.mem_cons.mpr (Or.inr (List.mem_cons.mpr (Or.inr h3)))
  intro l hl
  cases l with
  | nil => exact absurd rfl hl
  | cons a r => exact key r a

theorem foldl_max_init_le : ∀ (l : List Nat) (a : Nat), a ≤ l.foldl Nat.max a := by
  intro l
  induction l with
  | nil => intro a; simp
  | cons b t ih =>
    intro a
    exact le_trans (Nat.le_max_left a b) (ih (Nat.max a b))

theorem le_foldl_max : ∀ (l : List Nat) (a : Nat), ∀ x ∈ l, x ≤ l.foldl Nat.max a := by
  intro l
  induction l with
  | nil => intro a x hx; cases hx
  | cons b t ih =>
    intro a x hx
    rcases List.mem_cons.mp hx with h | h
    · subst h
      exact le_trans (Nat.le_max_right a x) (foldl_max_init_le t (Nat.max a x))
    · exact ih (Nat.max a b) x h

theorem le_maxKey {d : LDict} {e : Nat × List Coord} (he : e ∈ d) : e.1 ≤ maxKey d :=
  le_foldl_max (d.map Prod.fst) 0 e.1 (List.mem_map.mpr ⟨e, he, rfl⟩)

theorem mem_check_neighborhood {pc : Coord} {d : LDict} {x : Nat} :
    x ∈ check_neighborhood pc d ↔
      ∃ e ∈ d, e.1 = x ∧ ∃ dir ∈ directions, addC pc dir ∈ e.2 := by
  unfold check_neighborhood
  simp only [List.mem_map, List.mem_filter, List.any_eq_true, decide_eq_true_eq]
  constructor
  · rintro ⟨e, ⟨hed, dir, hdir, hmem⟩, hex⟩
    exact ⟨e, hed, hex, dir, hdir, hmem⟩
  · rintro ⟨e, hed, hex, dir, hdir, hmem⟩
    exact ⟨e, ⟨hed, dir, hdir, hmem⟩, hex⟩

theorem check_neighborhood_nil {pc : Coord} {d : LDict}
    (h : ∀ e ∈ d, ∀ dir ∈ directions, addC pc dir ∉ e.2) :
    check_neighborhood pc d = [] := by
  unfold check_neighborhood
  have h2 : d.filter (fun e => directions.any (fun dir => decide (addC pc dir ∈ e.2))) = [] := by
    rw [List.filter_eq_nil_iff]
    intro e he
    simp only [List.any_eq_true, decide_eq_true_eq, not_exists, not_and]
    intro dir hdir
    exact h e he dir hdir
  rw [h2, List.map_nil]

theorem mem_coords {w h : Nat} {c : Coord} :
    c ∈ coords w h ↔ ∃ x y, x < w ∧ y < h ∧ c = (Int.ofNat x, Int.ofNat y) := by
  unfold coords
  simp only [List.mem_flatMap, List.mem_map, List.mem_range]
  constructor
  · rintro ⟨y, hy, x, hx, rfl⟩
    exact ⟨x, y, hx, hy, rfl⟩
  · rintro ⟨x, y, hx, hy, rfl⟩
    exact ⟨y, hy, x, hx, rfl⟩

theorem coords_nodup (w h : Nat) : (coords w h).Nodup := by
  unfold coords
  rw [List.nodup_flatMap]
  constructor
  · intro y _
    apply List.Nodup.map
    · intro a b hab
      simpa using hab
    · exact List.nodup_range w
  · have hp : (List.range h).Pairwise (· < ·) := List.pairwise_lt_range h
    apply hp.imp
    intro a b hab c hc1 hc2
    simp only [List.mem_map, List.mem_range] at hc1 hc2
    obtain ⟨x1, _, h1⟩ := hc1
    obtain ⟨x2, _, h2⟩ := hc2
    rw [← h1] at h2
    have : b = a := by simpa using congrArg Prod.snd h2
    omega

theorem keys_setEntry (d : LDict) (k : Nat) (v : List Coord) :
    (setEntry d k v).map Prod.fst = d.map Prod.fst := by
  unfold setEntry
  rw [List.map_map]
  apply List.map_congr_left
  intro e _
  by_cases h : e.1 = k
  · simp [h]
  · simp [h]

theorem mem_setEntry {d : LDict} {k : Nat} {v : List Coord} {e : Nat × List Coord}
    (h : e ∈ setEntry d k v) :
    (e.1 = k ∧ e.2 = v ∧ ∃ e0 ∈ d, e0.1 = k) ∨ (e ∈ d ∧ e.1 ≠ k) := by
  unfold setEntry at h
  obtain ⟨e0, he0, heq⟩ := List.mem_map.mp h
  by_cases h0 : e0.1 = k
  · rw [if_pos h0] at heq
    left
    rw [← heq]
    exact ⟨rfl, rfl, e0, he0, h0⟩
  · rw [if_neg h0] at heq
    right
    rw [← heq]
    exact ⟨he0, h0⟩

theorem setEntry_mem_of_mem {d : LDict} {k : Nat} {v : List Coord} {e : Nat × List Coord}
    (h : e ∈ d) (hne : e.1 ≠ k) : e ∈ setEntry d k v := by
  unfold setEntry
  exact List.mem_map.mpr ⟨e, h, by rw [if_neg hne]⟩

theorem setEntry_self_mem {d : LDict} {k : Nat} {v : List Coord}
    (h : ∃ e ∈ d, e.1 = k) : (k, v) ∈ setEntry d k v := by
  obtain ⟨e, he, hk⟩ := h
  unfold setEntry
  exact List.mem_map.mpr ⟨e, he, by rw [if_pos hk]⟩

theorem mem_removeKey {d : LDict} {k : Nat} {e : Nat × List Coord} :
    e ∈ removeKey d k ↔ e ∈ d ∧ e.1 ≠ k := by
  unfold removeKey
  simp [List.mem_filter]

theorem removeKey_keys_nodup {d : LDict} (h : (d.map Prod.fst).Nodup) (k : Nat) :
    ((removeKey d k).map Prod.fst).Nodup := by
  unfold removeKey
  exact h.sublist (List.Sublist.map Prod.fst (List.filter_sublist d))

theorem nodup_keys_unique {d : LDict} (hnd : (d.map Prod.fst).Nodup)
    {e1 e2 : Nat × List Coord} (h1 : e1 ∈ d) (h2 : e2 ∈ d) (hk : e1.1 = e2.1) :
    e1 = e2 := by
  induction d with
  | nil => cases h1
  | cons a t ih =>
    have hnd2 : (t.map Prod.fst).Nodup := (List.nodup_cons.mp (by simpa using hnd)).2
    have hna : a.1 ∉ t.map Prod.fst := (List.nodup_cons.mp (by simpa using hnd)).1
    rcases List.mem_cons.mp h1 with h1e | h1t <;> rcases List.mem_cons.mp h2 with h2e | h2t
    · rw [h1e, h2e]
    · exfalso
      apply hna
      rw [h1e] at hk
      rw [hk]
      exact List.mem_map.mpr ⟨e2, h2t, rfl⟩
    · exfalso
      apply hna
      rw [h2e] at hk
      rw [← hk]
      exact List.mem_map.mpr ⟨e1, h1t, rfl⟩
    · exact ih hnd2 h1t h2t

theorem key_exists_iff {d : LDict} {x : Nat} :
    (∃ e ∈ d, e.1 = x) ↔ x ∈ d.map Prod.fst := by
  simp only [List.mem_map]

theorem find_label_eq (pc : Coord) (d : LDict) (eqList : List (List Nat)) :
    (d = [] ∧ find_label pc d eqList = (1, eqList)) ∨
    (d ≠ [] ∧ check_neighborhood pc d = [] ∧
      find_label pc d eqList = (maxKey d + 1, eqList)) ∨
    (d ≠ [] ∧ check_neighborhood pc d ≠ [] ∧
      find_label pc d eqList =
        (lmin (check_neighborhood pc d), eqList ++ [check_neighborhood pc d])) := by
  by_cases hd : d = []
  · left
    refine ⟨hd, ?_⟩
    unfold find_label
    rw [if_pos (by simp [hd])]
  · by_cases hc : check_neighborhood pc d = []
    · right; left
      refine ⟨hd, hc, ?_⟩
      unfold find_label
      rw [if_neg (by simp [List.isEmpty_iff, hd])]
      simp [hc]
    · right; right
      refine ⟨hd, hc, ?_⟩
      unfold find_label
      rw [if_neg (by simp [List.isEmpty_iff, hd])]
      simp only []
      rw [if_neg (by simp [List.isEmpty_iff, hc])]

theorem scanStep_eq (img : PILImage) (bg : Nat) (st : ScanState) (pc : Coord) :
    (img.getpixel pc = bg ∧ scanStep img bg st pc = st) ∨
    (img.getpixel pc ≠ bg ∧
      (scanStep img bg st pc).eqList = (find_label pc st.d st.eqList).2 ∧
      ((∃ lst, alookup st.d (find_label pc st.d st.eqList).1 = some lst ∧
          (scanStep img bg st pc).d =
            setEntry st.d (find_label pc st.d st.eqList).1 (lst ++ [pc])) ∨
       (alookup st.d (find_label pc st.d st.eqList).1 = none ∧
          (scanStep img bg st pc).d =
            st.d ++ [((find_label pc st.d st.eqList).1, [pc])]))) := by
  by_cases hbg : img.getpixel pc = bg
  · left
    refine ⟨hbg, ?_⟩
    unfold scanStep
    rw [if_neg (by simp [hbg])]
  · right
    refine ⟨hbg, ?_, ?_⟩
    · unfold scanStep
      rw [if_pos hbg]
    · cases hl : alookup st.d (find_label pc st.d st.eqList).1 with
      | some lst =>
        left
        refine ⟨lst, rfl, ?_⟩
        unfold scanStep
        rw [if_pos hbg]
        simp only [hl]
      | none =>
        right
        refine ⟨rfl, ?_⟩
        unfold scanStep
        rw [if_pos hbg]
        simp only [hl]

theorem scanStep_coords {img : PILImage} {bg : Nat} {st : ScanState} {pc : Coord} :
    ∀ e ∈ (scanStep img bg st pc).d, ∀ c ∈ e.2, c = pc ∨ ∃ e2 ∈ st.d, c ∈ e2.2 := by
  intro e he c hc
  rcases scanStep_eq img bg st pc with ⟨_, heq⟩ | ⟨_, _, ⟨lst, hl, hd⟩ | ⟨hl, hd⟩⟩
  · rw [heq] at he
    exact Or.inr ⟨e, he, hc⟩
  · rw [hd] at he
    rcases mem_setEntry he with ⟨_, hv, _⟩ | ⟨hed, _⟩
    · rw [hv] at hc
      rcases List.mem_append.mp hc with hc2 | hc2
      · exact Or.inr ⟨_, alookup_mem hl, hc2⟩
      · exact Or.inl (by simpa using hc2)
    · exact Or.inr ⟨e, hed, hc⟩
  · rw [hd] at he
    rcases List.mem_append.mp he with he2 | he2
    · exact Or.inr ⟨e, he2, hc⟩
    · have he3 : e = ((find_label pc st.d st.eqList).1, [pc]) := by simpa using he2
      rw [he3] at hc
      exact Or.inl (by simpa using hc)

theorem find_label_fst_pos {pc : Coord} {d : LDict} {eqList : List (List Nat)}
    (hkeys : ∀ e ∈ d, 1 ≤ e.1) : 1 ≤ (find_label pc d eqList).1 := by
  rcases find_label_eq pc d eqList with ⟨_, hfl⟩ | ⟨_, _, hfl⟩ | ⟨_, hc, hfl⟩ <;> rw [hfl]
  · exact Nat.succ_le_succ (Nat.zero_le _)
  · have hm := lmin_mem _ hc
    obtain ⟨e, he, hex, _⟩ := mem_check_neighborhood.mp hm
    have h2 : 1 ≤ e.1 := hkeys e he
    rw [hex] at h2
    exact h2

theorem scanStep_inv {img : PILImage} {bg : Nat} {st : ScanState} {pc : Coord}
    (hpc : pc ∈ coords img.width img.height)
    (hfresh : ∀ e ∈ st.d, pc ∉ e.2)
    (hinv : ScanInv img bg st) :
    ScanInv img bg (scanStep img bg st pc) := by
  rcases scanStep_eq img bg st pc with ⟨hbg, heq⟩ | ⟨hbg, heql, hcase⟩
  · rw [heq]
    exact hinv
  · have hpcfg : pc ∈ fgList img bg := by
      unfold fgList
      rw [List.mem_filter]
      exact ⟨hpc, by simpa using hbg⟩
    have heqsets : ∀ s ∈ (scanStep img bg st pc).eqList, ∀ x ∈ s, ∃ e ∈ st.d, e.1 = x := by
      rw [heql]
      rcases find_label_eq pc st.d st.eqList with ⟨_, hfl⟩ | ⟨_, _, hfl⟩ | ⟨_, _, hfl⟩ <;>
          rw [hfl] <;> intro s hs x hx
      · exact hinv.eqKeys s hs x hx
      · exact hinv.eqKeys s hs x hx
      · rcases List.mem_append.mp hs with hs2 | hs2
        · exact hinv.eqKeys s hs2 x hx
        · have hsc : s = check_neighborhood pc st.d := by simpa using hs2
          rw [hsc] at hx
          obtain ⟨e, he, hex, _⟩ := mem_check_neighborhood.mp hx
          exact ⟨e, he, hex⟩
    rcases hcase with ⟨lst, hl, hd⟩ | ⟨hl, hd⟩
    · have hrl : ((find_label pc st.d st.eqList).1, lst) ∈ st.d := alookup_mem hl
      constructor
      · constructor
        · intro e he c hc
          rw [hd] at he
          rcases mem_setEntry he with ⟨_, hv, _⟩ | ⟨hed, _⟩
          · rw [hv] at hc
            rcases List.mem_append.mp hc with hc2 | hc2
            · exact hinv.dict.fg _ hrl c hc2
            · rw [show c = pc by simpa using hc2]
              exact hpcfg
          · exact hinv.dict.fg e hed c hc
        · rw [hd, keys_setEntry]
          exact hinv.dict.keysNodup
        · intro e he
          rw [hd] at he
          rcases mem_setEntry he with ⟨hk, _, _⟩ | ⟨hed, _⟩
          · rw [hk]
            exact hinv.dict.keysPos _ hrl
          · exact hinv.dict.keysPos e hed
        · intro e1 he1 e2 he2 hne c hc1
          rw [hd] at he1 he2
          rcases mem_setEntry he1 with ⟨hk1, hv1, _⟩ | ⟨hed1, hne1⟩ <;>
            rcases mem_setEntry he2 with ⟨hk2, hv2, _⟩ | ⟨hed2, hne2⟩
          · exact absurd (hk1.trans hk2.symm) hne
          · rw [hv1] at hc1
            intro hc2
            rcases List.mem_append.mp hc1 with hc3 | hc3
            · exact hinv.dict.disj _ hrl e2 hed2 (by rw [← hk1]; exact hne) c hc3 hc2
            · rw [show c = pc by simpa using hc3] at hc2
              exact hfresh e2 hed2 hc2
          · rw [hv2]
            intro hc2
            rcases List.mem_append.mp hc2 with hc3 | hc3
            · exact hinv.dict.disj e1 hed1 _ hrl (by rw [← hk2]; exact hne) c hc1 hc3
            · rw [show c = pc by simpa using hc3] at hc1
              exact hfresh e1 hed1 hc1
          · exact hinv.dict.disj e1 hed1 e2 hed2 hne c hc1
      · intro s hs x hx
        obtain ⟨e, he, hex⟩ := heqsets s hs x hx
        rw [key_exists_iff, hd, keys_setEntry, ← key_exists_iff]
        exact ⟨e, he, hex⟩
    · have hnotin : (find_label pc st.d st.eqList).1 ∉ st.d.map Prod.fst := by
        intro hkey
        obtain ⟨v, hv⟩ := alookup_isSome_of_key hkey
        rw [hl] at hv
        cases hv
      constructor
      · constructor
        · intro e he c hc
          rw [hd] at he
          rcases List.mem_append.mp he with he2 | he2
          · exact hinv.dict.fg e he2 c hc
          · rw [show e = ((find_label pc st.d st.eqList).1, [pc]) by simpa using he2] at hc
            rw [show c = pc by simpa using hc]
            exact hpcfg
        · rw [hd, List.map_append]
          rw [List.nodup_append]
          refine ⟨hinv.dict.keysNodup, by simp, ?_⟩
          intro x hx hx2
          rw [show x = (find_label pc st.d st.eqList).1 from by simpa using hx2] at hx
          exact hnotin hx
        · intro e he
          rw [hd] at he
          rcases List.mem_append.mp he with he2 | he2
          · exact hinv.dict.keysPos e he2
          · rw [show e = ((find_label pc st.d st.eqList).1, [pc]) by simpa using he2]
            exact find_label_fst_pos hinv.dict.keysPos
        · intro e1 he1 e2 he2 hne c hc1 hc2
          rw [hd] at he1 he2
          rcases List.mem_append.mp he1 with ha1 | ha1 <;>
            rcases List.mem_append.mp he2 with ha2 | ha2
          · exact hinv.dict.disj e1 ha1 e2 ha2 hne c hc1 hc2
          · rw [show e2 = ((find_label pc st.d st.eqList).1, [pc]) by simpa using ha2] at hc2
            rw [show c = pc by simpa using hc2] at hc1
            exact hfresh e1 ha1 hc1
          · rw [show e1 = ((find_label pc st.d st.eqList).1, [pc]) by simpa using ha1] at hc1
            rw [show c = pc by simpa using hc1] at hc2
            exact hfresh e2 ha2 hc2
          · have h1 : e1 = ((find_label pc st.d st.eqList).1, [pc]) := by simpa using ha1
            have h2 : e2 = ((find_label pc st.d st.eqList).1, [pc]) := by simpa using ha2
            rw [h1, h2] at hne
            exact absurd rfl hne
      · intro s hs x hx
        obtain ⟨e, he, hex⟩ := heqsets s hs x hx
        rw [hd]
        exact ⟨e, List.mem_append.mpr (Or.inl he), hex⟩

theorem foldl_scan_coords {img : PILImage} {bg : Nat} :
    ∀ (cs : List Coord) (st : ScanState),
      ∀ e ∈ (cs.foldl (scanStep img bg) st).d, ∀ c ∈ e.2,
        c ∈ cs ∨ ∃ e2 ∈ st.d, c ∈ e2.2 := by
  intro cs
  induction cs with
  | nil =>
    intro st e he c hc
    exact Or.inr ⟨e, he, hc⟩
  | cons x rest ih =>
    intro st e he c hc
    rw [List.foldl_cons] at he
    rcases ih _ e he c hc with h2 | ⟨e2, he2, hc2⟩
    · exact Or.inl (by simp [h2])
    · rcases scanStep_coords e2 he2 c hc2 with h3 | ⟨e3, he3, hc3⟩
      · exact Or.inl (by simp [h3])
      · exact Or.inr ⟨e3, he3, hc3⟩

theorem foldl_scan_inv {img : PILImage} {bg : Nat} :
    ∀ (cs : List Coord) (st : ScanState),
      (∀ c ∈ cs, c ∈ coords img.width img.height) →
      cs.Nodup →
      (∀ e ∈ st.d, ∀ c ∈ e.2, c ∉ cs) →
      ScanInv img bg st →
      ScanInv img bg (cs.foldl (scanStep img bg) st) := by
  intro cs
  induction cs with
  | nil =>
    intro st _ _ _ hinv
    exact hinv
  | cons c rest ih =>
    intro st hin hnd hdisj hinv
    rw [List.foldl_cons]
    have hfresh : ∀ e ∈ st.d, c ∉ e.2 := fun e he hc => hdisj e he c hc (by simp)
    have hinv2 := scanStep_inv (hin c (by simp)) hfresh hinv
    refine ih _ (fun x hx => hin x (by simp [hx])) (List.nodup_cons.mp hnd).2 ?_ hinv2
    intro e he x hx hxrest
    rcases scanStep_coords e he x hx with hxc | ⟨e2, he2, hx2⟩
    · rw [hxc] at hxrest
      exact (List.nodup_cons.mp hnd).1 hxrest
    · exact hdisj e2 he2 x hx2 (by simp [hxrest])

theorem passOne_inv (img : PILImage) (bg : Nat) : ScanInv img bg (passOne img bg) := by
  unfold passOne
  refine foldl_scan_inv _ _ (fun c hc => hc) (coords_nodup _ _) ?_ ?_
  · intro e he
    cases he
  · constructor
    · constructor
      · intro e he
        cases he
      · exact List.nodup_nil
      · intro e he
        cases he
      · intro e1 he1
        cases he1
    · intro s hs
      cases hs

theorem scanStep_iso {img : PILImage} {bg : Nat} {st : ScanState} {pc p : Coord}
    (hpc : pc ∈ coords img.width img.height)
    (hiso : isolatedPixel img bg p)
    (hinv : ScanInv img bg st)
    (hip : IsoPred p st) :
    IsoPred p (scanStep img bg st pc) := by
  obtain ⟨L, hL, hLs⟩ := hip
  rcases scanStep_eq img bg st pc with ⟨_, heq⟩ | ⟨hbg, heql, hcase⟩
  · rw [heq]
    exact ⟨L, hL, hLs⟩
  · have hpcfg : pc ∈ fgList img bg := by
      unfold fgList
      rw [List.mem_filter]
      exact ⟨hpc, by simpa using hbg⟩
    have hLnotin : L ∉ check_neighborhood pc st.d := by
      intro hmem
      obtain ⟨e, he, heL, dir, hdir, hnb⟩ := mem_check_neighborhood.mp hmem
      have he2 : e = (L, [p]) := nodup_keys_unique hinv.dict.keysNodup he hL heL
      rw [he2] at hnb
      have hp2 : addC pc dir = p := by simpa using hnb
      have hneg : ((-dir.1, -dir.2) : Coord) ∈ directions := by
        have hdir2 := hdir
        simp only [directions, List.mem_cons, List.not_mem_nil, or_false] at hdir2
        rcases hdir2 with h|h|h|h|h|h|h|h <;> rw [h] <;> decide
      apply hiso.2 _ hneg
      have hx : pc.1 + dir.1 = p.1 := congrArg Prod.fst hp2
      have hy : pc.2 + dir.2 = p.2 := congrArg Prod.snd hp2
      have hpc2 : addC p (-dir.1, -dir.2) = pc := by
        unfold addC
        have hxx : p.1 + -dir.1 = pc.1 := by omega
        have hyy : p.2 + -dir.2 = pc.2 := by omega
        rw [hxx, hyy]
      rw [hpc2]
      exact hpcfg
    have hLne : L ≠ (find_label pc st.d st.eqList).1 := by
      rcases find_label_eq pc st.d st.eqList with ⟨hd0, hfl⟩ | ⟨_, _, hfl⟩ | ⟨_, hc, hfl⟩
      · rw [hd0] at hL
        cases hL
      · rw [hfl]
        intro hcontra
        have hcontra2 : L = maxKey st.d + 1 := hcontra
        have hle : L ≤ maxKey st.d := le_maxKey hL
        omega
      · rw [hfl]
        intro hcontra
        have hcontra2 : L = lmin (check_neighborhood pc st.d) := hcontra
        apply hLnotin
        rw [hcontra2]
        exact lmin_mem _ hc
    have heqpred : ∀ s ∈ (scanStep img bg st pc).eqList, L ∉ s := by
      rw [heql]
      rcases find_label_eq pc st.d st.eqList with ⟨_, hfl⟩ | ⟨_, _, hfl⟩ | ⟨_, _, hfl⟩ <;> rw [hfl]
      · exact hLs
      · exact hLs
      · intro s hs
        have hs2 : s ∈ st.eqList ++ [check_neighborhood pc st.d] := hs
        rcases List.mem_append.mp hs2 with hs3 | hs3
        · exact hLs s hs3
        · rw [show s = check_neighborhood pc st.d by simpa using hs3]
          exact hLnotin
    rcases hcase with ⟨lst, hl, hd⟩ | ⟨hl, hd⟩
    · refine ⟨L, ?_, heqpred⟩
      rw [hd]
      exact setEntry_mem_of_mem hL hLne
    · refine ⟨L, ?_, heqpred⟩
      rw [hd]
      exact List.mem_append.mpr (Or.inl hL)

theorem scanStep_iso_establish {img : PILImage} {bg : Nat} {st : ScanState} {p : Coord}
    (hiso : isolatedPixel img bg p)
    (hinv : ScanInv img bg st) :
    IsoPred p (scanStep img bg st p) := by
  have hbg : img.getpixel p ≠ bg := by
    have h2 := hiso.1
    unfold fgList at h2
    rw [List.mem_filter] at h2
    simpa using h2.2
  have hck : check_neighborhood p st.d = [] := by
    apply check_neighborhood_nil
    intro e he dir hdir hmem
    exact hiso.2 dir hdir (hinv.dict.fg e he _ hmem)
  rcases scanStep_eq img bg st p with ⟨hbg2, _⟩ | ⟨_, heql, hcase⟩
  · exact absurd hbg2 hbg
  · rcases find_label_eq p st.d st.eqList with ⟨hd0, hfl⟩ | ⟨hd0, _, hfl⟩ | ⟨_, hc, _⟩
    · rcases hcase with ⟨lst, hl, hd⟩ | ⟨hl, hd⟩
      · rw [hd0] at hl
        cases hl
      · refine ⟨1, ?_, ?_⟩
        · rw [hd, hfl, hd0]
          simp
        · intro s hs
          rw [heql, hfl] at hs
          intro hmem
          obtain ⟨e, he, _⟩ := hinv.eqKeys s hs 1 hmem
          rw [hd0] at he
          cases he
    · have hnone : alookup st.d (maxKey st.d + 1) = none := by
        rw [alookup_eq_none_iff]
        intro e he hkey
        have hle := le_maxKey he
        omega
      rcases hcase with ⟨lst, hl, hd⟩ | ⟨hl, hd⟩
      · rw [hfl] at hl
        have hl2 : alookup st.d (maxKey st.d + 1) = some lst := hl
        rw [hnone] at hl2
        cases hl2
      · refine ⟨maxKey st.d + 1, ?_, ?_⟩
        · rw [hd, hfl]
          exact List.mem_append.mpr (Or.inr (by simp))
        · intro s hs
          rw [heql, hfl] at hs
          intro hmem
          obtain ⟨e, he, hek⟩ := hinv.eqKeys s hs _ hmem
          have hle := le_maxKey he
          omega
    · exact absurd hck hc

theorem foldl_scan_iso {img : PILImage} {bg : Nat} {p : Coord}
    (hiso : isolatedPixel img bg p) :
    ∀ (cs : List Coord) (st : ScanState),
      (∀ c ∈ cs, c ∈ coords img.width img.height) →
      cs.Nodup →
      (∀ e ∈ st.d, ∀ c ∈ e.2, c ∉ cs) →
      ScanInv img bg st →
      IsoPred p st →
      IsoPred p (cs.foldl (scanStep img bg) st) := by
  intro cs
  induction cs with
  | nil =>
    intro st _ _ _ _ hip
    exact hip
  | cons c rest ih =>
    intro st hin hnd hdisj hinv hip
    rw [List.foldl_cons]
    have hfresh : ∀ e ∈ st.d, c ∉ e.2 := fun e he hc => hdisj e he c hc (by simp)
    have hinv2 := scanStep_inv (hin c (by simp)) hfresh hinv
    have hip2 := scanStep_iso (hin c (by simp)) hiso hinv hip
    refine ih _ (fun x hx => hin x (by simp [hx])) (List.nodup_cons.mp hnd).2 ?_ hinv2 hip2
    intro e he x hx hxrest
    rcases scanStep_coords e he x hx with hxc | ⟨e2, he2, hx2⟩
    · rw [hxc] at hxrest
      exact (List.nodup_cons.mp hnd).1 hxrest
    · exact hdisj e2 he2 x hx2 (by simp [hxrest])

theorem passOne_iso {img : PILImage} {bg : Nat} {p : Coord}
    (hiso : isolatedPixel img bg p) : IsoPred p (passOne img bg) := by
  have hpcoords : p ∈ coords img.width img.height := by
    have h2 := hiso.1
    unfold fgList at h2
    exact (List.mem_filter.mp h2).1
  obtain ⟨l1, l2, hsplit⟩ := List.append_of_mem hpcoords
  have hnd := coords_nodup img.width img.height
  rw [hsplit] at hnd
  have h1nd : l1.Nodup := (List.nodup_append.mp hnd).1
  have hrest : (p :: l2).Nodup := (List.nodup_append.mp hnd).2.1
  have hdisj12 : ∀ x ∈ l1, x ∉ p :: l2 := fun x hx hx2 =>
    (List.nodup_append.mp hnd).2.2 hx hx2
  unfold passOne
  rw [hsplit, List.foldl_append, List.foldl_cons]
  have hsub1 : ∀ c ∈ l1, c ∈ coords img.width img.height := by
    intro c hc
    rw [hsplit]
    exact List.mem_append.mpr (Or.inl hc)
  have hinit : ScanInv img bg (⟨[], []⟩ : ScanState) := by
    constructor
    · constructor
      · intro e he; cases he
      · exact List.nodup_nil
      · intro e he; cases he
      · intro e1 he1; cases he1
    · intro s hs; cases hs
  have hinv1 : ScanInv img bg (l1.foldl (scanStep img bg) ⟨[], []⟩) :=
    foldl_scan_inv l1 _ hsub1 h1nd (by intro e he; cases he) hinit
  have hco1 : ∀ e ∈ (l1.foldl (scanStep img bg) ⟨[], []⟩).d, ∀ c ∈ e.2, c ∈ l1 := by
    intro e he c hc
    rcases foldl_scan_coords l1 _ e he c hc with h | ⟨e2, he2, _⟩
    · exact h
    · cases he2
  have hfreshp : ∀ e ∈ (l1.foldl (scanStep img bg) ⟨[], []⟩).d, p ∉ e.2 := by
    intro e he hp2
    exact hdisj12 p (hco1 e he p hp2) (by simp)
  have hip2 := scanStep_iso_establish hiso hinv1
  have hinv2 := scanStep_inv hpcoords hfreshp hinv1
  refine foldl_scan_iso hiso l2 _ ?_ ?_ ?_ hinv2 hip2
  · intro c hc
    rw [hsplit]
    exact List.mem_append.mpr (Or.inr (by simp [hc]))
  · exact (List.nodup_cons.mp hrest).2
  · intro e he x hx hxl2
    rcases scanStep_coords e he x hx with hxp | ⟨e2, he2, hx2⟩
    · rw [hxp] at hxl2
      exact (List.nodup_cons.mp hrest).1 hxl2
    · exact hdisj12 x (hco1 e2 he2 x hx2) (by simp [hxl2])

theorem getD_not_mem {store : List (List Nat)} {L : Nat}
    (h : ∀ s ∈ store, L ∉ s) (j : Nat) : L ∉ store.getD j [] := by
  by_cases hj : j < store.length
  · rw [List.getD_eq_getElem store [] hj]
    exact h _ (List.getElem_mem hj)
  · rw [List.getD_eq_default store [] (by omega)]
    simp

theorem phaseAStep_no_label {L label : Nat} {acc : List (List Nat) × List (Nat × Nat)} {j : Nat}
    (h1 : ∀ s ∈ acc.1, L ∉ s) (h2 : ∀ e ∈ acc.2, e.1 ≠ L) :
    (∀ s ∈ (phaseAStep label acc j).1, L ∉ s) ∧
    (∀ e ∈ (phaseAStep label acc j).2, e.1 ≠ L) := by
  unfold phaseAStep
  by_cases hin : label ∈ acc.1.getD j []
  · rw [if_pos hin]
    have hLj : L ∉ acc.1.getD j [] := getD_not_mem h1 j
    cases hl : alookup acc.2 label with
    | none =>
      simp only []
      refine ⟨h1, ?_⟩
      intro e he
      rcases List.mem_append.mp he with he2 | he2
      · exact h2 e he2
      · rw [show e = (label, j) by simpa using he2]
        intro hLeq
        exact hLj (hLeq ▸ hin)
    | some i =>
      simp only []
      refine ⟨?_, h2⟩
      intro s hs
      rcases List.mem_or_eq_of_mem_set hs with hs2 | hs2
      · exact h1 s hs2
      · rw [hs2]
        unfold lunion
        intro hmem
        rcases List.mem_append.mp hmem with hm | hm
        · exact getD_not_mem h1 i hm
        · exact hLj (List.mem_of_mem_filter hm)
  · rw [if_neg hin]
    exact ⟨h1, h2⟩

theorem phaseA_inner_no_label {L label : Nat} :
    ∀ (js : List Nat) (acc : List (List Nat) × List (Nat × Nat)),
      (∀ s ∈ acc.1, L ∉ s) → (∀ e ∈ acc.2, e.1 ≠ L) →
      (∀ s ∈ (js.foldl (phaseAStep label) acc).1, L ∉ s) ∧
      (∀ e ∈ (js.foldl (phaseAStep label) acc).2, e.1 ≠ L) := by
  intro js
  induction js with
  | nil =>
    intro acc h1 h2
    exact ⟨h1, h2⟩
  | cons j t ih =>
    intro acc h1 h2
    rw [List.foldl_cons]
    have h3 := @phaseAStep_no_label L label acc j h1 h2
    exact ih _ h3.1 h3.2

theorem phaseA_no_label {labels : List Nat} {store : List (List Nat)} {L : Nat}
    (hstore : ∀ s ∈ store, L ∉ s) :
    (∀ s ∈ (phaseA labels store).1, L ∉ s) ∧
    (∀ e ∈ (phaseA labels store).2, e.1 ≠ L) := by
  unfold phaseA
  have main : ∀ (ls : List Nat) (acc : List (List Nat) × List (Nat × Nat)),
      (∀ s ∈ acc.1, L ∉ s) → (∀ e ∈ acc.2, e.1 ≠ L) →
      (∀ s ∈ (ls.foldl
          (fun acc label => (List.range store.length).foldl (phaseAStep label) acc) acc).1,
        L ∉ s) ∧
      (∀ e ∈ (ls.foldl
          (fun acc label => (List.range store.length).foldl (phaseAStep label) acc) acc).2,
        e.1 ≠ L) := by
    intro ls
    induction ls with
    | nil =>
      intro acc h1 h2
      exact ⟨h1, h2⟩
    | cons lab t ih =>
      intro acc h1 h2
      rw [List.foldl_cons]
      have h3 := @phaseA_inner_no_label L lab (List.range store.length) acc h1 h2
      exact ih _ h3.1 h3.2
  exact main labels (store, []) hstore (fun e he => absurd he (List.not_mem_nil e))

theorem mergeFold_cons (eqmin : List (Nat × Nat)) (d : LDict) (l0 : Nat) (t : List Nat) :
    mergeFold eqmin d (l0 :: t) =
      match alookup eqmin l0 with
      | none => none
      | some r =>
        if r = l0 then mergeFold eqmin d t
        else
          match alookup d r with
          | none => none
          | some lstR =>
            match alookup d l0 with
            | none => none
            | some lstL =>
              mergeFold eqmin (removeKey (setEntry d r (lstR ++ lstL)) l0) t := rfl

theorem mergeFold_none {eqmin : List (Nat × Nat)} {L : Nat}
    (hL : alookup eqmin L = none) :
    ∀ (labels : List Nat) (d : LDict), L ∈ labels → mergeFold eqmin d labels = none := by
  intro labels
  induction labels with
  | nil =>
    intro d h
    cases h
  | cons l0 t ih =>
    intro d hmem
    by_cases h0 : l0 = L
    · subst h0
      rw [mergeFold_cons]
      simp only [hL]
    · have hmem2 : L ∈ t := by
        rcases List.mem_cons.mp hmem with h | h
        · exact absurd h.symm h0
        · exact h
      rw [mergeFold_cons]
      cases he : alookup eqmin l0 with
      | none => simp only [he]
      | some r =>
        simp only [he]
        by_cases hr : r = l0
        · rw [if_pos hr]
          exact ih d hmem2
        · rw [if_neg hr]
          cases h2 : alookup d r with
          | none => simp only [h2]
          | some lstR =>
            simp only [h2]
            cases h3 : alookup d l0 with
            | none => simp only [h3]
            | some lstL =>
              simp only [h3]
              exact ih _ hmem2

theorem update_label_none {d : LDict} {eqList : List (List Nat)} {L : Nat}
    (hkey : L ∈ d.map Prod.fst)
    (hnos : ∀ s ∈ eqList, L ∉ s) :
    update_label d eqList = none := by
  unfold update_label
  have hpa := @phaseA_no_label (d.map Prod.fst) eqList L hnos
  apply mergeFold_none ?_ _ _ hkey
  rw [alookup_eq_none_iff]
  intro e he
  obtain ⟨e0, he0, heq⟩ := List.mem_map.mp he
  rw [← heq]
  exact hpa.2 e0 he0

/-- Claim C3: on every image whose foreground contains a connected component
of exactly one pixel, Pass 2 (`update_label`) raises an uncaught KeyError
(modelled by `none`): the isolated pixel's provisional label occurs in no
equivalence record, so the `equivalence_dict[label]` lookup fails, and
`find_sprites` returns no sprite collection. -/
theorem find_sprites_none_of_isolated_pixel (img : PILImage) (bg : Nat) (p : Coord)
    (hiso : isolatedPixel img bg p) :
    create_labelled_dict img bg = none ∧ find_sprites img (some bg) = none := by
  obtain ⟨L, hL, hLs⟩ := passOne_iso hiso
  have hcd : create_labelled_dict img bg = none := by
    unfold create_labelled_dict
    exact update_label_none (List.mem_map.mpr ⟨(L, [p]), hL, rfl⟩) hLs
  refine ⟨hcd, ?_⟩
  simp only [find_sprites, hcd]

/-- Witness for C3: the 1x1 image whose single pixel is foreground. -/
theorem find_sprites_none_of_isolated_pixel_witness :
    create_labelled_dict imgLone 0 = none ∧ find_sprites imgLone (some 0) = none :=
  find_sprites_none_of_isolated_pixel imgLone 0 (0, 0) (by decide)

theorem mergeStep_dictInv {img : PILImage} {bg : Nat} {d : LDict} {r label : Nat}
    {lstR lstL : List Coord}
    (hinv : DictInv img bg d)
    (hR : alookup d r = some lstR) (hL2 : alookup d label = some lstL)
    (_hne : r ≠ label) :
    DictInv img bg (removeKey (setEntry d r (lstR ++ lstL)) label) := by
  have hRmem : (r, lstR) ∈ d := alookup_mem hR
  have hLmem : (label, lstL) ∈ d := alookup_mem hL2
  constructor
  · intro e he c hc
    rw [mem_removeKey] at he
    rcases mem_setEntry he.1 with ⟨_, hv, _⟩ | ⟨hed, _⟩
    · rw [hv] at hc
      rcases List.mem_append.mp hc with hc2 | hc2
      · exact hinv.fg _ hRmem c hc2
      · exact hinv.fg _ hLmem c hc2
    · exact hinv.fg e hed c hc
  · apply removeKey_keys_nodup
    rw [keys_setEntry]
    exact hinv.keysNodup
  · intro e he
    rw [mem_removeKey] at he
    rcases mem_setEntry he.1 with ⟨hk, _, _⟩ | ⟨hed, _⟩
    · rw [hk]
      exact hinv.keysPos _ hRmem
    · exact hinv.keysPos e hed
  · intro e1 he1 e2 he2 hne12 c hc1 hc2
    rw [mem_removeKey] at he1 he2
    rcases mem_setEntry he1.1 with ⟨hk1, hv1, _⟩ | ⟨hed1, _⟩ <;>
      rcases mem_setEntry he2.1 with ⟨hk2, hv2, _⟩ | ⟨hed2, _⟩
    · exact hne12 (hk1.trans hk2.symm)
    · rw [hv1] at hc1
      rcases List.mem_append.mp hc1 with hc3 | hc3
      · exact hinv.disj _ hRmem e2 hed2 (hk1 ▸ hne12) c hc3 hc2
      · exact hinv.disj _ hLmem e2 hed2 (Ne.symm he2.2) c hc3 hc2
    · rw [hv2] at hc2
      rcases List.mem_append.mp hc2 with hc3 | hc3
      · exact hinv.disj e1 hed1 _ hRmem (hk2 ▸ hne12) c hc1 hc3
      · exact hinv.disj e1 hed1 _ hLmem he1.2 c hc1 hc3
    · exact hinv.disj e1 hed1 e2 hed2 hne12 c hc1 hc2

theorem mergeFold_dictInv {img : PILImage} {bg : Nat} {eqmin : List (Nat × Nat)} :
    ∀ (labels : List Nat) (d d2 : LDict),
      DictInv img bg d → mergeFold eqmin d labels = some d2 → DictInv img bg d2 := by
  intro labels
  induction labels with
  | nil =>
    intro d d2 hinv h
    cases h
    exact hinv
  | cons l0 t ih =>
    intro d d2 hinv h
    rw [mergeFold_cons] at h
    cases he : alookup eqmin l0 with
    | none =>
      simp only [he] at h
      exact Option.noConfusion h
    | some r =>
      simp only [he] at h
      by_cases hr : r = l0
      · rw [if_pos hr] at h
        exact ih d d2 hinv h
      · rw [if_neg hr] at h
        cases h2 : alookup d r with
        | none =>
          simp only [h2] at h
          exact Option.noConfusion h
        | some lstR =>
          simp only [h2] at h
          cases h3 : alookup d l0 with
          | none =>
            simp only [h3] at h
            exact Option.noConfusion h
          | some lstL =>
            simp only [h3] at h
            exact ih _ d2 (mergeStep_dictInv hinv h2 h3 hr) h

theorem update_label_dictInv {img : PILImage} {bg : Nat} {d d2 : LDict}
    {eqList : List (List Nat)}
    (hinv : DictInv img bg d) (h : update_label d eqList = some d2) :
    DictInv img bg d2 := by
  unfold update_label at h
  exact mergeFold_dictInv _ d d2 hinv h

theorem create_labelled_dict_dictInv {img : PILImage} {bg : Nat} {d : LDict}
    (h : create_labelled_dict img bg = some d) : DictInv img bg d := by
  unfold create_labelled_dict at h
  exact update_label_dictInv (passOne_inv img bg).dict h

theorem cellLabel_foldl_skip {pc : Coord} :
    ∀ (d : LDict) (a : Nat), (∀ e ∈ d, pc ∉ e.2) →
      d.foldl (fun acc e => if pc ∈ e.2 then e.1 else acc) a = a := by
  intro d
  induction d with
  | nil =>
    intro a _
    rfl
  | cons e0 t ih =>
    intro a h
    rw [List.foldl_cons, if_neg (h e0 (by simp))]
    exact ih a (fun e he => h e (by simp [he]))

theorem cellLabel_eq_zero {d : LDict} {pc : Coord}
    (h : ∀ e ∈ d, pc ∉ e.2) : cellLabel d pc = 0 :=
  cellLabel_foldl_skip d 0 h

theorem cellLabel_eq_of_mem {pc : Coord} :
    ∀ (d : LDict) (e0 : Nat × List Coord),
      (∀ e1 ∈ d, ∀ e2 ∈ d, e1.1 ≠ e2.1 → ∀ c ∈ e1.2, c ∉ e2.2) →
      (d.map Prod.fst).Nodup →
      e0 ∈ d → pc ∈ e0.2 → cellLabel d pc = e0.1 := by
  intro d
  induction d with
  | nil =>
    intro e0 _ _ he0 _
    cases he0
  | cons a t ih =>
    intro e0 hd hnd he0 hc
    unfold cellLabel
    rw [List.foldl_cons]
    rcases List.mem_cons.mp he0 with he | he
    · subst he
      rw [if_pos hc]
      apply cellLabel_foldl_skip
      intro e he2
      have hne : e0.1 ≠ e.1 := by
        intro heq
        have hmem : e0.1 ∈ t.map Prod.fst := heq ▸ List.mem_map.mpr ⟨e, he2, rfl⟩
        exact (List.nodup_cons.mp (by simpa using hnd)).1 hmem
      exact hd e0 (by simp) e (by simp [he2]) hne pc hc
    · have hne : a.1 ≠ e0.1 := by
        intro heq
        have hmem : a.1 ∈ t.map Prod.fst := heq ▸ List.mem_map.mpr ⟨e0, he, rfl⟩
        exact (List.nodup_cons.mp (by simpa using hnd)).1 hmem
      have hnc : pc ∉ a.2 := hd e0 (by simp [he]) a (by simp) (Ne.symm hne) pc hc
      rw [if_neg hnc]
      exact ih e0 (fun e1 h1 e2 h2 => hd e1 (by simp [h1]) e2 (by simp [h2]))
        (List.nodup_cons.mp (by simpa using hnd)).2 he hc

theorem create_label_map_cell (d : LDict) (img : PILImage) {x y : Nat}
    (hx : x < img.width) (hy : y < img.height) :
    (((create_label_map d img).getD y []).getD x 0) =
      cellLabel d (Int.ofNat x, Int.ofNat y) := by
  have hrow : (create_label_map d img).getD y [] =
      (List.range img.width).map (fun x => cellLabel d (Int.ofNat x, Int.ofNat y)) := by
    unfold create_label_map
    have hlen : y < ((List.range img.height).map
        (fun y => (List.range img.width).map
          (fun x => cellLabel d (Int.ofNat x, Int.ofNat y)))).length := by
      simpa using hy
    rw [List.getD_eq_getElem _ _ hlen, List.getElem_map, List.getElem_range]
  rw [hrow]
  have hlen2 : x < ((List.range img.width).map
      (fun x => cellLabel d (Int.ofNat x, Int.ofNat y))).length := by
    simpa using hx
  rw [List.getD_eq_getElem _ _ hlen2, List.getElem_map, List.getElem_range]

/-- Claim C5: in the label map produced by `find_sprites`, every cell holds
0 or exactly one canonical label of the resolved dictionary; for every
canonical label its cells are exactly its component's pixel set (so no
coordinate belongs to two components), and every component pixel lies in
the grid. -/
theorem label_map_partition (img : PILImage) (bg : Nat) (d : LDict)
    (sp : List (Nat × Sprite)) (lm : List (List Nat))
    (hd : create_labelled_dict img bg = some d)
    (hf : find_sprites img (some bg) = some (sp, lm)) :
    (∀ x y, x < img.width → y < img.height →
      ((lm.getD y []).getD x 0 = 0 ∧ ∀ e ∈ d, (Int.ofNat x, Int.ofNat y) ∉ e.2) ∨
      ∃ lst, ((lm.getD y []).getD x 0, lst) ∈ d ∧ (Int.ofNat x, Int.ofNat y) ∈ lst) ∧
    (∀ x y, x < img.width → y < img.height → ∀ L lst, (L, lst) ∈ d →
      ((lm.getD y []).getD x 0 = L ↔ (Int.ofNat x, Int.ofNat y) ∈ lst)) ∧
    (∀ L lst, (L, lst) ∈ d → ∀ c ∈ lst,
      ∃ x y, x < img.width ∧ y < img.height ∧ c = (Int.ofNat x, Int.ofNat y)) := by
  have hinv : DictInv img bg d := create_labelled_dict_dictInv hd
  have hlm : lm = create_label_map d img := by
    simp only [find_sprites, hd] at hf
    cases hs : spritesOf d with
    | none =>
      rw [hs] at hf
      exact Option.noConfusion hf
    | some sps =>
      rw [hs] at hf
      have h2 := Option.some.inj hf
      exact (congrArg Prod.snd h2).symm
  have hcell : ∀ x y, x < img.width → y < img.height →
      (lm.getD y []).getD x 0 = cellLabel d (Int.ofNat x, Int.ofNat y) := by
    intro x y hx hy
    rw [hlm]
    exact create_label_map_cell d img hx hy
  refine ⟨?_, ?_, ?_⟩
  · intro x y hx hy
    by_cases hmem : ∃ e ∈ d, (Int.ofNat x, Int.ofNat y) ∈ e.2
    · obtain ⟨e, he, hce⟩ := hmem
      right
      refine ⟨e.2, ?_, hce⟩
      rw [hcell x y hx hy, cellLabel_eq_of_mem d e hinv.disj hinv.keysNodup he hce]
      exact he
    · left
      push_neg at hmem
      refine ⟨?_, hmem⟩
      rw [hcell x y hx hy]
      exact cellLabel_eq_zero hmem
  · intro x y hx hy L lst hL
    rw [hcell x y hx hy]
    constructor
    · intro hcl
      by_cases hmem : ∃ e ∈ d, (Int.ofNat x, Int.ofNat y) ∈ e.2
      · obtain ⟨e, he, hce⟩ := hmem
        have he2 : cellLabel d (Int.ofNat x, Int.ofNat y) = e.1 :=
          cellLabel_eq_of_mem d e hinv.disj hinv.keysNodup he hce
        have hkey : e.1 = L := by rw [← he2, hcl]
        have heq : e = (L, lst) := nodup_keys_unique hinv.keysNodup he hL hkey
        rw [heq] at hce
        exact hce
      · push_neg at hmem
        rw [cellLabel_eq_zero hmem] at hcl
        have hpos : 1 ≤ L := hinv.keysPos (L, lst) hL
        omega
    · intro hmem
      exact cellLabel_eq_of_mem d (L, lst) hinv.disj hinv.keysNodup hL hmem
  · intro L lst hL c hc
    have hfg : c ∈ fgList img bg := hinv.fg (L, lst) hL c hc
    have hco : c ∈ coords img.width img.height := by
      unfold fgList at hfg
      exact (List.mem_filter.mp hfg).1
    obtain ⟨x, y, hx, hy, hxy⟩ := mem_coords.mp hco
    exact ⟨x, y, hx, hy, hxy⟩

/-- Witness for C5: the domino image, its resolved dictionary, sprites and
label map, with the cell/pixel-set equivalence checked at cell (1,0). -/
theorem label_map_partition_witness :
    create_labelled_dict imgDomino 0 = some [(1, [(0, 0), (1, 0)])] ∧
    find_sprites imgDomino (some 0) =
      some ([(1, Sprite.mk 1 (0, 0) (1, 0) 2 1)], [[1, 1], [0, 0]]) ∧
    ((([[1, 1], [0, 0]] : List (List Nat)).getD 0 []).getD 1 0 = 1 ↔
      (Int.ofNat 1, Int.ofNat 0) ∈ ([(0, 0), (1, 0)] : List Coord)) := by
  refine ⟨by decide, by decide, ?_⟩
  exact (label_map_partition imgDomino 0 [(1, [(0, 0), (1, 0)])]
    [(1, Sprite.mk 1 (0, 0) (1, 0) 2 1)] [[1, 1], [0, 0]] (by decide) (by decide)).2.1
    1 0 (by decide) (by decide) 1 [(0, 0), (1, 0)] (by decide)
